import Mathlib

/-!
A verification development for the training orchestrator in
`src/train/train_DESI.py` (the `spender` repository).

The Python source is shallowly embedded: pure numerical code becomes Lean
functions, numpy/torch float arrays become lists over `ℚ` (orchestration
bookkeeping) or `ℝ` (loss mathematics), fallible code returns `Except`.
External collaborators (autoencoder internals, autograd, the optimizer) are
either abstracted as function parameters or, where a theorem needs their
contract, modelled from the design document and marked as such in the
doc comment.
-/

namespace Spender

/-! ## Curriculum ladder (`build_ladder`, src lines 26-35)

The Python function allocates `np.zeros(n_iter)` (which raises `ValueError`
for a negative length) and then writes stage index `i` into the slice
`ladder[n_start:n_end]`.  Iteration counts are embedded as integers so that
non-positive counts — which the function does not validate — stay
representable; Python slice-bound normalisation (negative indices count from
the end, bounds are clamped) is reproduced in `sliceAssign`. -/

/-- Python slice-bound normalisation for a sequence of length `n`:
a negative bound counts from the end, then the bound is clamped to `[0, n]`. -/
def normIdx (n : ℕ) (i : ℤ) : ℕ :=
  if i < 0 then ((n : ℤ) + i).toNat.min n else i.toNat.min n

/-- Slice assignment `ladder[a:b] = v` on a list, with Python slice semantics. -/
def sliceAssign (l : List ℤ) (a b : ℤ) (v : ℤ) : List ℤ :=
  let a' := normIdx l.length a
  let b' := normIdx l.length b
  (l.enum).map (fun p => if a' ≤ p.1 ∧ p.1 < b' then v else p.2)

/-- One pass of the `for i,mode in enumerate(train_sequence)` loop body:
state is `(ladder, n_start)`; the stage writes its index into
`ladder[n_start:n_start+iteration]`. -/
def ladderStep (st : List ℤ × ℤ) (p : ℕ × ℤ) : List ℤ × ℤ :=
  let n_end := st.2 + p.2
  (sliceAssign st.1 st.2 n_end (p.1 : ℤ), n_end)

/-- The function `build_ladder(train_sequence)` (src lines 26-35).  The input is the list
of `iteration` counts, in stage order.  `np.zeros` raises for a negative
total length; otherwise the loop fills slices as in the source. -/
def build_ladder (train_sequence : List ℤ) : Except String (List ℤ) :=
  let n_iter := train_sequence.sum
  if n_iter < 0 then .error "ValueError: negative dimensions are not allowed"
  else
    .ok ((train_sequence.enum.foldl ladderStep
          (List.replicate n_iter.toNat 0, 0)).1)

/-- The concatenation the spec describes: for each stage, in order,
`iteration_count` repetitions of its index. -/
def ladderConcat (counts : List ℤ) : List ℤ :=
  (counts.enum.map (fun p => List.replicate p.2.toNat (p.1 : ℤ))).flatten

/-- Recursive form of `ladderConcat`, starting the stage numbering at `i`. -/
def concatFrom (i : ℕ) : List ℤ → List ℤ
  | [] => []
  | c :: rest => List.replicate c.toNat (i : ℤ) ++ concatFrom (i + 1) rest

theorem length_sliceAssign (l : List ℤ) (a b v : ℤ) :
    (sliceAssign l a b v).length = l.length := by
  simp [sliceAssign]

theorem getElem_sliceAssign (l : List ℤ) (a b v : ℤ) (j : ℕ) (hj : j < l.length)
    (hj2 : j < (sliceAssign l a b v).length) :
    (sliceAssign l a b v)[j]
      = if normIdx l.length a ≤ j ∧ j < normIdx l.length b then v else l[j] := by
  simp [sliceAssign]

theorem sliceAssign_fill (done : List ℤ) (c r : ℕ) (v : ℤ) :
    sliceAssign (done ++ List.replicate (c + r) 0) (done.length : ℤ)
        ((done.length : ℤ) + (c : ℤ)) v
      = done ++ (List.replicate c v ++ List.replicate r 0) := by
  have hlen : (done ++ List.replicate (c + r) (0 : ℤ)).length = done.length + (c + r) := by
    simp
  have ha : normIdx (done.length + (c + r)) (done.length : ℤ) = done.length := by
    unfold normIdx
    rw [if_neg (by omega), Int.toNat_natCast]
    exact Nat.min_eq_left (by omega)
  have hb : normIdx (done.length + (c + r)) ((done.length : ℤ) + (c : ℤ))
      = done.length + c := by
    unfold normIdx
    rw [if_neg (by omega)]
    have h1 : ((done.length : ℤ) + (c : ℤ)) = ((done.length + c : ℕ) : ℤ) := by push_cast; ring
    rw [h1, Int.toNat_natCast]
    exact Nat.min_eq_left (by omega)
  apply List.ext_getElem
  · simp [length_sliceAssign]
  · intro j hj₁ hj₂
    have hj : j < (done ++ List.replicate (c + r) (0 : ℤ)).length := by
      simpa [length_sliceAssign] using hj₁
    rw [getElem_sliceAssign _ _ _ _ _ hj hj₁, hlen, ha, hb]
    rcases lt_or_le j done.length with hcase | hcase
    · rw [if_neg (by omega)]
      rw [List.getElem_append_left hcase, List.getElem_append_left hcase]
    · rcases lt_or_le j (done.length + c) with hcase2 | hcase2
      · rw [if_pos ⟨hcase, hcase2⟩]
        rw [List.getElem_append_right hcase, List.getElem_append_left (by simpa using by omega)]
        simp
      · rw [if_neg (by omega)]
        rw [List.getElem_append_right hcase, List.getElem_append_right hcase,
          List.getElem_append_right (by simpa using by omega)]
        simp

theorem sum_nonneg_of_mem {l : List ℤ} (h : ∀ c ∈ l, 0 ≤ c) : 0 ≤ l.sum := by
  induction l with
  | nil => simp
  | cons c rest ih =>
    simp only [List.sum_cons]
    have := h c (by simp)
    have := ih (fun x hx => h x (by simp [hx]))
    omega

theorem ladder_fold (rest : List ℤ) : ∀ (i : ℕ) (done : List ℤ), (∀ c ∈ rest, 0 ≤ c) →
    (List.enumFrom i rest).foldl ladderStep
        (done ++ List.replicate rest.sum.toNat 0, (done.length : ℤ))
      = (done ++ concatFrom i rest, (done.length : ℤ) + rest.sum) := by
  induction rest with
  | nil => intro i done _; simp [concatFrom]
  | cons c rest ih =>
    intro i done h
    have hc : 0 ≤ c := h c (by simp)
    have hrest : 0 ≤ rest.sum := sum_nonneg_of_mem (fun x hx => h x (by simp [hx]))
    have hsum : (c :: rest).sum.toNat = c.toNat + rest.sum.toNat := by
      simp only [List.sum_cons]; omega
    have hstep : ladderStep (done ++ List.replicate (c :: rest).sum.toNat 0,
        (done.length : ℤ)) (i, c)
        = (done ++ (List.replicate c.toNat (i : ℤ) ++ List.replicate rest.sum.toNat 0),
           (done.length : ℤ) + c) := by
      have hcast : (done.length : ℤ) + c = (done.length : ℤ) + (c.toNat : ℤ) := by omega
      rw [ladderStep, hsum, hcast, sliceAssign_fill]
    have hfold : (List.enumFrom i (c :: rest)).foldl ladderStep
        (done ++ List.replicate (c :: rest).sum.toNat 0, (done.length : ℤ))
        = (List.enumFrom (i + 1) rest).foldl ladderStep
          (done ++ (List.replicate c.toNat (i : ℤ) ++ List.replicate rest.sum.toNat 0),
           (done.length : ℤ) + c) := by
      rw [List.enumFrom_cons, List.foldl_cons, hstep]
    rw [hfold, ← List.append_assoc]
    have hlen2 : ((done ++ List.replicate c.toNat (i : ℤ)).length : ℤ)
        = (done.length : ℤ) + c := by
      simp; omega
    rw [← hlen2, ih (i + 1) (done ++ List.replicate c.toNat (i : ℤ))
      (fun x hx => h x (by simp [hx]))]
    simp only [concatFrom, List.sum_cons, ← List.append_assoc]
    rw [Prod.mk.injEq]
    exact ⟨rfl, by rw [hlen2]; ring⟩

theorem build_ladder_eq_concat {seq : List ℤ} (h : ∀ c ∈ seq, 0 ≤ c) :
    build_ladder seq = .ok (concatFrom 0 seq) := by
  have hsum : ¬ seq.sum < 0 := not_lt.2 (sum_nonneg_of_mem h)
  have h0 : (List.replicate seq.sum.toNat (0 : ℤ), (0 : ℤ))
      = (([] : List ℤ) ++ List.replicate seq.sum.toNat 0, ((([] : List ℤ).length : ℕ) : ℤ)) := by
    simp
  rw [build_ladder, if_neg hsum, List.enum, h0, ladder_fold seq 0 [] h]
  simp

theorem length_concatFrom (l : List ℤ) : ∀ i, (concatFrom i l).length = (l.map Int.toNat).sum := by
  induction l with
  | nil => intro i; simp [concatFrom]
  | cons c rest ih => intro i; simp [concatFrom, ih]

theorem le_of_mem_concatFrom (l : List ℤ) : ∀ (i : ℕ) (x : ℤ),
    x ∈ concatFrom i l → (i : ℤ) ≤ x := by
  induction l with
  | nil => intro i x hx; simp [concatFrom] at hx
  | cons c rest ih =>
    intro i x hx
    rcases List.mem_append.1 hx with hx | hx
    · rw [List.eq_of_mem_replicate hx]
    · have := ih (i + 1) x hx
      omega

theorem chain'_concatFrom (l : List ℤ) : ∀ i, List.Chain' (· ≤ ·) (concatFrom i l) := by
  induction l with
  | nil => intro i; simp [concatFrom]
  | cons c rest ih =>
    intro i
    refine List.Chain'.append (List.chain'_replicate_of_rel _ le_rfl) (ih (i + 1)) ?_
    intro x hx y hy
    have hx' : x = (i : ℤ) := List.eq_of_mem_replicate (List.mem_of_mem_getLast? hx)
    have hy' : ((i : ℕ) + 1 : ℤ) ≤ y := by
      have := le_of_mem_concatFrom rest (i + 1) y (List.mem_of_mem_head? hy)
      push_cast at this ⊢
      omega
    omega

theorem count_concatFrom (l : List ℤ) : ∀ (i j : ℕ), j < l.length →
    (concatFrom i l).count ((i + j : ℕ) : ℤ) = (l.getD j 0).toNat := by
  induction l with
  | nil => intro i j hj; simp at hj
  | cons c rest ih =>
    intro i j hj
    rcases j with _ | j
    · have hzero : (concatFrom (i + 1) rest).count ((i : ℕ) : ℤ) = 0 := by
        apply List.count_eq_zero.2
        intro hmem
        have := le_of_mem_concatFrom rest (i + 1) _ hmem
        push_cast at this
        omega
      simp only [Nat.add_zero, concatFrom, List.count_append, hzero]
      rw [List.count_replicate]
      simp [List.getD]
    · have hcast : ((i + (j + 1) : ℕ) : ℤ) = (((i + 1) + j : ℕ) : ℤ) := by push_cast; ring
      have hrep : (List.replicate c.toNat ((i : ℕ) : ℤ)).count ((((i + 1) + j : ℕ)) : ℤ) = 0 := by
        apply List.count_eq_zero.2
        intro hmem
        have := List.eq_of_mem_replicate hmem
        push_cast at this
        omega
      simp only [concatFrom, List.count_append, hcast, hrep]
      rw [ih (i + 1) j (by simpa using hj)]
      simp [List.getD]

theorem map_toNat_sum {l : List ℤ} (h : ∀ c ∈ l, 0 ≤ c) :
    ((l.map Int.toNat).sum : ℤ) = l.sum := by
  induction l with
  | nil => simp
  | cons c rest ih =>
    simp only [List.map_cons, List.sum_cons]
    have hc := h c (by simp)
    have hr := ih (fun x hx => h x (by simp [hx]))
    rw [Nat.cast_add, hr, Int.toNat_of_nonneg hc]

theorem ladderConcat_eq_concatFrom (l : List ℤ) : ladderConcat l = concatFrom 0 l := by
  suffices h : ∀ (i : ℕ),
      ((List.enumFrom i l).map (fun p => List.replicate p.2.toNat ((p.1 : ℕ) : ℤ))).flatten
        = concatFrom i l by
    simpa [ladderConcat, List.enum] using h 0
  induction l with
  | nil => intro i; simp [concatFrom]
  | cons c rest ih => intro i; simp [concatFrom, List.enumFrom_cons, ih (i + 1)]

/-- C3: for a curriculum of positive iteration counts, `build_ladder` returns
the concatenation, for each stage in order, of `iteration_count` copies of the
stage's index; its length is the total iteration count, it is monotonically
non-decreasing, and stage `j` occupies exactly `iteration_count j` slots. -/
theorem build_ladder_correct (seq : List ℤ) (_hne : seq ≠ []) (hpos : ∀ c ∈ seq, 0 < c) :
    ∃ l, build_ladder seq = .ok l ∧ l = ladderConcat seq ∧
      (l.length : ℤ) = seq.sum ∧ List.Chain' (· ≤ ·) l ∧
      ∀ j, j < seq.length → l.count (j : ℤ) = (seq.getD j 0).toNat := by
  have hnn : ∀ c ∈ seq, 0 ≤ c := fun c hc => (hpos c hc).le
  refine ⟨concatFrom 0 seq, build_ladder_eq_concat hnn, (ladderConcat_eq_concatFrom seq).symm,
    ?_, chain'_concatFrom seq 0, ?_⟩
  · rw [length_concatFrom seq 0]
    exact map_toNat_sum hnn
  · intro j hj
    have := count_concatFrom seq 0 j hj
    simpa using this

/-- Witness for `build_ladder_correct` at the curriculum `[2, 3]`. -/
theorem build_ladder_correct_witness :
    (([2, 3] : List ℤ) ≠ [] ∧ ∀ c ∈ ([2, 3] : List ℤ), 0 < c) ∧
      ∃ l, build_ladder [2, 3] = .ok l ∧ l = ladderConcat [2, 3] ∧
        (l.length : ℤ) = ([2, 3] : List ℤ).sum ∧ List.Chain' (· ≤ ·) l ∧
        ∀ j, j < ([2, 3] : List ℤ).length → l.count (j : ℤ) = (([2, 3] : List ℤ).getD j 0).toNat :=
  ⟨⟨by decide, by decide⟩, build_ladder_correct [2, 3] (by decide) (by decide)⟩

/-- C6 counterexample: the curriculum `[2, 0, 3]` contains a stage with
`iteration_count = 0 ≤ 0`, yet `build_ladder` raises no configuration error:
it returns the ladder `[0, 0, 2, 2, 2]` (the zero-count stage simply
contributes no epochs). -/
theorem build_ladder_no_validation_cex :
    ((0 : ℤ) ∈ ([2, 0, 3] : List ℤ) ∧ (0 : ℤ) ≤ 0) ∧
      build_ladder [2, 0, 3] = .ok [0, 0, 2, 2, 2] :=
  ⟨⟨by decide, le_rfl⟩, rfl⟩

/-- C6 (amended): `build_ladder` performs no validation of individual
iteration counts; it succeeds whenever the total count is non-negative
(even if some stage's count is zero or negative) and fails — with numpy's
`ValueError` for a negative array length — exactly when the total is
negative. -/
theorem build_ladder_error_characterization (seq : List ℤ) :
    (0 ≤ seq.sum → ∃ l, build_ladder seq = .ok l) ∧
      (seq.sum < 0 →
        build_ladder seq = .error "ValueError: negative dimensions are not allowed") := by
  constructor
  · intro h
    exact ⟨_, by rw [build_ladder, if_neg (not_lt.2 h)]⟩
  · intro h
    rw [build_ladder, if_pos h]

/-- Witness for `build_ladder_error_characterization`: the curriculum
`[1, -1]` has a negative stage count but a non-negative total, and succeeds. -/
theorem build_ladder_error_characterization_witness :
    (0 : ℤ) ≤ ([1, -1] : List ℤ).sum ∧ ∃ l, build_ladder [1, -1] = .ok l :=
  ⟨by decide, (build_ladder_error_characterization [1, -1]).1 (by decide)⟩

/-! ## Annealing schedule (src lines 290-291, 431-432)

`slope = ANNEAL_SCHEDULE[(epoch_ - epoch) % len(ANNEAL_SCHEDULE)]` followed by
`if n_epoch - epoch_ <= 10: slope = 0`.  `epoch` is the resume offset (0 for a
fresh run) and `n_epoch` the loop's upper bound.  Schedule values are embedded
as exact rationals. -/

/-- The per-epoch slope, as computed at src lines 290-291.  Natural
subtraction matches the Python comparison: for `epoch_ > n_epoch` the Python
difference is negative, hence `<= 10`, and the slope of either version is 0. -/
def slopeAt (ANNEAL_SCHEDULE : List ℚ) (epoch_ epoch n_epoch : ℕ) : ℚ :=
  let slope := ANNEAL_SCHEDULE.getD ((epoch_ - epoch) % ANNEAL_SCHEDULE.length) 0
  if n_epoch - epoch_ ≤ 10 then 0 else slope

/-- The schedule `np.arange(0.0, 2.0, 0.1)` from src lines 431-432: the 20 values
`0.0, 0.1, …, 1.9`. -/
def annealScheduleMain : List ℚ := (List.range 20).map (fun i : ℕ => (i : ℚ) / 10)

theorem annealScheduleMain_getD (i : ℕ) (h : i < 20) :
    annealScheduleMain.getD i 0 = (i : ℚ) / 10 := by
  unfold annealScheduleMain
  rw [List.getD_eq_getElem _ _ (by simpa using h), List.getElem_map, List.getElem_range]

/-- C2: with a fresh run (resume offset 0), the slope at epoch `e` is the
cyclic lookup `schedule[e % len(schedule)]`, except forced to `0` whenever
`total_epochs - e ≤ 10`; the cool-down override takes precedence over the
cyclic value (periodicity holds outside the cool-down window).  In the
`__main__` configuration (`total_epochs = 800`,
`schedule = [0.0, 0.1, …, 1.9]`): `slope_at 790 = 0` by the override even
though the cycle would select `schedule[10] = 1.0`, and
`slope_at 780 = schedule[0] = 0.0` by the cyclic rule. -/
theorem slopeAt_correct :
    (∀ (sched : List ℚ) (e total : ℕ), total - e ≤ 10 → slopeAt sched e 0 total = 0) ∧
    (∀ (sched : List ℚ) (e total : ℕ), 10 < total - e →
      slopeAt sched e 0 total = sched.getD (e % sched.length) 0) ∧
    (∀ (sched : List ℚ) (e total : ℕ), 10 < total - e → 10 < total - (e + sched.length) →
      slopeAt sched (e + sched.length) 0 total = slopeAt sched e 0 total) ∧
    (annealScheduleMain.length = 20 ∧
      annealScheduleMain.getD (790 % 20) 0 = 1 ∧
      slopeAt annealScheduleMain 790 0 800 = 0 ∧
      slopeAt annealScheduleMain 780 0 800 = annealScheduleMain.getD 0 0 ∧
      annealScheduleMain.getD 0 0 = 0) := by
  refine ⟨?_, ?_, ?_, ?_⟩
  · intro sched e total h
    simp only [slopeAt, Nat.sub_zero]
    rw [if_pos h]
  · intro sched e total h
    simp only [slopeAt, Nat.sub_zero]
    rw [if_neg (by omega)]
  · intro sched e total h1 h2
    simp only [slopeAt, Nat.sub_zero]
    rw [if_neg (by omega), if_neg (by omega), Nat.add_mod_right]
  · have hlen : annealScheduleMain.length = 20 := by
      unfold annealScheduleMain
      rw [List.length_map, List.length_range]
    refine ⟨hlen, ?_, ?_, ?_, ?_⟩
    · rw [show (790 % 20 : ℕ) = 10 from by decide, annealScheduleMain_getD 10 (by decide)]
      norm_num
    · simp only [slopeAt, Nat.sub_zero]
      rw [if_pos (by decide)]
    · simp only [slopeAt, Nat.sub_zero]
      rw [if_neg (by decide), hlen, show (780 % 20 : ℕ) = 0 from by decide]
    · rw [annealScheduleMain_getD 0 (by decide)]
      norm_num

/-- Witness for `slopeAt_correct`: epoch 5 of 800 is outside the cool-down
window, and the cyclic lookup applies. -/
theorem slopeAt_correct_witness :
    10 < 800 - 5 ∧
      slopeAt annealScheduleMain 5 0 800
        = annealScheduleMain.getD (5 % annealScheduleMain.length) 0 :=
  ⟨by decide, slopeAt_correct.2.1 annealScheduleMain 5 800 (by decide)⟩

/-! ## Loss history and resume logic (src lines 259-282 and 459-464)

`losses` is the numpy array of shape `[2 phases][n_encoder][n_epoch][5 terms]`,
embedded as nested lists of rationals.  The `__main__` resume code computes
`non_zero = np.sum(losses[0][0], axis=1) > 0` — a per-epoch mask taken from
phase 0 (train), **encoder 0** — and keeps the epochs selected by that mask
(`losses = losses[:,:,non_zero,:]`).  `train` then reads the resume epoch as
`len(losses[0][0])`, allocates `n_epoch + epoch` epochs of zeros, copies the
trimmed history into the first `epoch` rows, and the loop writes rows
`[epoch, n_epoch + epoch)`; the content of each newly written row is the
batch-loop's doing and is abstracted as `newRow phase encoder epoch`. -/

abbrev LossHist := List (List (List (List ℚ)))

/-- The mask `np.sum(losses[0][0], axis=1) > 0` (src line 463): per-epoch mask over
the five loss terms of phase 0 (train), encoder 0. -/
def epochMask (losses : LossHist) : List Bool :=
  ((losses.getD 0 []).getD 0 []).map (fun row => decide (0 < row.sum))

/-- Boolean fancy-indexing of the epoch axis of one `[epoch][term]` slab. -/
def filterByMask (mask : List Bool) (epochs : List (List ℚ)) : List (List ℚ) :=
  ((epochs.zip mask).filter (fun p => p.2)).map (fun p => p.1)

/-- The epoch filter `losses = losses[:,:,non_zero,:]` (src line 464). -/
def resumeTrim (losses : LossHist) : LossHist :=
  losses.map (fun phase => phase.map (filterByMask (epochMask losses)))

/-- The loss-history bookkeeping of `train` (src lines 259-282 and the loop
writes at 331/337/359/366): `epoch = len(losses[0][0])`,
`n_epoch += epoch`, zero-allocate, copy the first `epoch` rows from the
supplied history, and let the epoch loop fill rows `[epoch, n_epoch)`
(abstracted by `newRow`). -/
def trainHistory (nEncoder nEpochArg : ℕ) (prev : LossHist)
    (newRow : ℕ → ℕ → ℕ → List ℚ) : LossHist :=
  let epoch := ((prev.getD 0 []).getD 0 []).length
  let n_epoch := nEpochArg + epoch
  (List.range 2).map (fun p =>
    (List.range nEncoder).map (fun e =>
      (List.range n_epoch).map (fun ep =>
        if ep < epoch then ((prev.getD p []).getD e []).getD ep []
        else newRow p e ep)))

/-- The driver's resume path (src lines 459-467): trim the loaded history by
the encoder-0 mask, then run `train` for `nEpochArg` further epochs. -/
def driverResume (ck : LossHist) (nEncoder nEpochArg : ℕ)
    (newRow : ℕ → ℕ → ℕ → List ℚ) : LossHist :=
  trainHistory nEncoder nEpochArg (resumeTrim ck) newRow

/-- Number of epochs recorded in a loss history. -/
def epochLen (h : LossHist) : ℕ := ((h.getD 0 []).getD 0 []).length

/-- A two-encoder, one-epoch loaded history: encoder 0's training row is all
zero, encoder 1's training row is non-zero. -/
def ckC1 : LossHist :=
  [[[[0, 0, 0, 0, 0]], [[5, 0, 0, 0, 0]]],
   [[[0, 0, 0, 0, 0]], [[0, 0, 0, 0, 0]]]]

/-- C1 counterexample: the resume scan reads only **encoder 0**, not "the
training-phase entries across all encoders".  In `ckC1` the first epoch has a
non-zero training entry for encoder 1 (so the claim's `k = 1`), yet after
resuming for `m = 1` further epochs the history has 1 epoch, not `k + m = 2`,
and encoder 1's first row has been discarded rather than left unchanged. -/
theorem driverResume_scans_only_encoder_zero :
    0 < ((((ckC1.getD 0 []).getD 1 []).getD 0 []).sum) ∧
    epochLen (driverResume ckC1 2 1 (fun _ _ _ => [1, 1, 1, 1, 1])) = 1 ∧
    (((driverResume ckC1 2 1 (fun _ _ _ => [1, 1, 1, 1, 1])).getD 0 []).getD 1 []).getD 0 []
      ≠ ((ckC1.getD 0 []).getD 1 []).getD 0 [] := by
  refine ⟨by norm_num [ckC1], ?_, ?_⟩ <;>
    simp [ckC1, driverResume, trainHistory, resumeTrim, epochMask, filterByMask, epochLen,
      List.range_succ]

theorem getD_map_range {α : Type _} (n : ℕ) (f : ℕ → α) (i : ℕ) (h : i < n) (d : α) :
    ((List.range n).map f).getD i d = f i := by
  rw [List.getD_eq_getElem _ _ (by simpa using h), List.getElem_map, List.getElem_range]

theorem getD_map_of_lt {α β : Type _} (f : α → β) (l : List α) (i : ℕ) (d : α) (d' : β)
    (h : i < l.length) : (l.map f).getD i d' = f (l.getD i d) := by
  rw [List.getD_eq_getElem _ _ (by simpa using h), List.getElem_map,
    List.getD_eq_getElem _ _ h]

theorem getD_mem_of_lt {α : Type _} (l : List α) (i : ℕ) (h : i < l.length) (d : α) :
    l.getD i d ∈ l := by
  rw [List.getD_eq_getElem _ _ h]
  exact List.getElem_mem h

theorem getD_take_of_lt {α : Type _} (l : List α) (k i : ℕ) (h : i < k) (h2 : i < l.length)
    (d : α) : (l.take k).getD i d = l.getD i d := by
  rw [List.getD_eq_getElem _ _ (by simp only [List.length_take]; omega),
    List.getElem_take, List.getD_eq_getElem _ _ h2]

theorem filterByMask_cons_true (b : List Bool) (a : List ℚ) (t : List (List ℚ)) :
    filterByMask (true :: b) (a :: t) = a :: filterByMask b t := by
  simp [filterByMask]

theorem filterByMask_cons_false (b : List Bool) (a : List ℚ) (t : List (List ℚ)) :
    filterByMask (false :: b) (a :: t) = filterByMask b t := by
  simp [filterByMask]

theorem filterByMask_false (rows : List (List ℚ)) : ∀ r : ℕ,
    filterByMask (List.replicate r false) rows = [] := by
  induction rows with
  | nil => intro r; simp [filterByMask]
  | cons a t ih =>
    intro r
    cases r with
    | zero => simp [filterByMask]
    | succ s => rw [List.replicate_succ, filterByMask_cons_false]; exact ih s

theorem filterByMask_take (k : ℕ) : ∀ (r : ℕ) (rows : List (List ℚ)),
    rows.length = k + r →
    filterByMask (List.replicate k true ++ List.replicate r false) rows = rows.take k := by
  induction k with
  | zero => intro r rows _; simpa using filterByMask_false rows r
  | succ k ih =>
    intro r rows hlen
    cases rows with
    | nil => simp at hlen; exact absurd hlen (by omega)
    | cons a t =>
      rw [List.replicate_succ, List.cons_append, filterByMask_cons_true, List.take_succ_cons]
      have ht : t.length = k + r := by simp at hlen; omega
      rw [ih r t ht]

/-- C1 (amended): the resume epoch `k` is determined by scanning the
training-phase entries of **encoder 0 only** (the epochs whose five-term sum
is positive), not across all encoders.  Under the hypothesis — restated for
encoder 0 — that the first `k` training rows have positive sum and the
remaining rows do not, resuming for `m` further epochs yields a history of
`k + m` epochs whose first `k` rows (for every phase and every encoder) are
unchanged and whose rows `[k, k+m)` are the newly computed ones. -/
theorem resume_correct (ck : LossHist) (nEnc nEp k m : ℕ)
    (newRow : ℕ → ℕ → ℕ → List ℚ)
    (hph : ck.length = 2)
    (hnEnc : 0 < nEnc)
    (hencs : ∀ ph ∈ ck, ph.length = nEnc)
    (heps : ∀ ph ∈ ck, ∀ enc ∈ ph, enc.length = nEp)
    (hk : k ≤ nEp)
    (hpos : ∀ e, e < k → 0 < (((ck.getD 0 []).getD 0 []).getD e []).sum)
    (hzero : ∀ e, k ≤ e → e < nEp → (((ck.getD 0 []).getD 0 []).getD e []).sum ≤ 0) :
    epochLen (driverResume ck nEnc m newRow) = k + m ∧
    (∀ p, p < 2 → ∀ enc, enc < nEnc → ∀ e, e < k →
      (((driverResume ck nEnc m newRow).getD p []).getD enc []).getD e []
        = ((ck.getD p []).getD enc []).getD e []) ∧
    (∀ p, p < 2 → ∀ enc, enc < nEnc → ∀ e, k ≤ e → e < k + m →
      (((driverResume ck nEnc m newRow).getD p []).getD enc []).getD e []
        = newRow p enc e) := by
  have hmem0 : ck.getD 0 [] ∈ ck := getD_mem_of_lt _ _ (by omega) _
  have hmem00 : (ck.getD 0 []).getD 0 [] ∈ ck.getD 0 [] :=
    getD_mem_of_lt _ _ (by rw [hencs _ hmem0]; omega) _
  have hrows0len : ((ck.getD 0 []).getD 0 []).length = nEp := heps _ hmem0 _ hmem00
  have hmask : epochMask ck = List.replicate k true ++ List.replicate (nEp - k) false := by
    apply List.ext_getElem
    · simp only [epochMask, List.length_map, List.length_append, List.length_replicate,
        hrows0len]
      omega
    · intro i hi1 hi2
      have hi : i < nEp := by
        simpa only [epochMask, List.length_map, hrows0len] using hi1
      unfold epochMask
      rw [List.getElem_map]
      rcases lt_or_le i k with hik | hik
      · rw [List.getElem_append_left (by simp only [List.length_replicate]; omega),
          List.getElem_replicate]
        simp only [decide_eq_true_eq]
        have := hpos i hik
        rwa [List.getD_eq_getElem _ _ (by omega)] at this
      · rw [List.getElem_append_right (by simp only [List.length_replicate]; omega),
          List.getElem_replicate]
        simp only [decide_eq_false_iff_not, not_lt]
        have := hzero i hik hi
        rwa [List.getD_eq_getElem _ _ (by omega)] at this
  have hlens : ∀ p, p < 2 → ∀ enc, enc < nEnc →
      ((ck.getD p []).getD enc []).length = nEp := by
    intro p hp enc henc
    have h1 : ck.getD p [] ∈ ck := getD_mem_of_lt _ _ (by rw [hph]; exact hp) _
    have h2 : (ck.getD p []).getD enc [] ∈ ck.getD p [] :=
      getD_mem_of_lt _ _ (by rw [hencs _ h1]; exact henc) _
    exact heps _ h1 _ h2
  have htrim : ∀ p, p < 2 → ∀ enc, enc < nEnc →
      ((resumeTrim ck).getD p []).getD enc [] = ((ck.getD p []).getD enc []).take k := by
    intro p hp enc henc
    unfold resumeTrim
    rw [getD_map_of_lt _ _ _ [] [] (by rw [hph]; exact hp),
      getD_map_of_lt _ _ _ [] [] (by rw [hencs _ (getD_mem_of_lt _ _ (by rw [hph]; exact hp) _)]; exact henc),
      hmask, filterByMask_take k (nEp - k) _ (by rw [hlens p hp enc henc]; omega)]
  have hepoch : (((resumeTrim ck).getD 0 []).getD 0 []).length = k := by
    rw [htrim 0 (by omega) 0 hnEnc, List.length_take, hrows0len]
    omega
  have hTH : driverResume ck nEnc m newRow
      = (List.range 2).map (fun p =>
          (List.range nEnc).map (fun e =>
            (List.range (m + k)).map (fun ep =>
              if ep < k then (((resumeTrim ck).getD p []).getD e []).getD ep []
              else newRow p e ep))) := by
    simp only [driverResume, trainHistory, hepoch]
  refine ⟨?_, ?_, ?_⟩
  · rw [epochLen, hTH, getD_map_range 2 _ 0 (by omega) [], getD_map_range nEnc _ 0 hnEnc [],
      List.length_map, List.length_range]
    omega
  · intro p hp enc henc e he
    rw [hTH, getD_map_range 2 _ p hp [], getD_map_range nEnc _ enc henc [],
      getD_map_range (m + k) _ e (by omega) [], if_pos he, htrim p hp enc henc]
    exact getD_take_of_lt _ _ _ he (by rw [hlens p hp enc henc]; omega) _
  · intro p hp enc henc e he1 he2
    rw [hTH, getD_map_range 2 _ p hp [], getD_map_range nEnc _ enc henc [],
      getD_map_range (m + k) _ e (by omega) [], if_neg (by omega)]

/-- A well-formed single-encoder history: two recorded epochs, of which only
the first has a non-zero training row. -/
def ckC1W : LossHist :=
  [[[[1, 0, 0, 0, 0], [0, 0, 0, 0, 0]]],
   [[[2, 0, 0, 0, 0], [0, 0, 0, 0, 0]]]]

/-- Witness for `resume_correct` at `ckC1W` with `k = 1`, `m = 1`. -/
theorem resume_correct_witness :
    epochLen (driverResume ckC1W 1 1 (fun _ _ _ => [3, 3, 3, 3, 3])) = 1 + 1 :=
  (resume_correct ckC1W 1 2 1 1 (fun _ _ _ => [3, 3, 3, 3, 3])
    (by decide) (by decide) (by decide) (by decide) (by decide)
    (by intro e he; have h0 : e = 0 := by omega
        subst h0; norm_num [ckC1W])
    (by intro e h1 h2; have h0 : e = 1 := by omega
        subst h0; norm_num [ckC1W])).1

/-! ## Checkpoint save and load (`checkpoint` src 193-200, `load_model` src 202-220)

The persisted checkpoint is a Python dict with the two string keys
`"model"` (a list of per-encoder state dicts) and `"losses"`.  A state dict
is an ordered mapping from string keys to tensors (tensor values are a type
parameter `T`; the loss array a type parameter `L`).  Whether
`model.load_state_dict(sd, strict=False)` succeeds is external torch
behaviour, abstracted as the predicate `loadOk`. -/

inductive PyKey where
  | str (s : String)
  | idx (n : ℕ)
deriving DecidableEq

inductive CkptVal (T L : Type) where
  | models (ms : List (List (String × T)))
  | hist (h : L)

abbrev Ckpt (T L : Type) := List (PyKey × CkptVal T L)

def dictGet {T L : Type} (d : Ckpt T L) (k : PyKey) : Option (CkptVal T L) :=
  (d.find? (fun p => decide (p.1 = k))).map (fun p => p.2)

/-- The save call of `checkpoint` (src 196-199), writing a dict with the two
string keys `model` and `losses`. -/
def checkpoint_save {T L : Type} (unwrapped : List (List (String × T))) (losses : L) :
    Ckpt T L :=
  [(PyKey.str "model", CkptVal.models unwrapped), (PyKey.str "losses", CkptVal.hist losses)]

structure Instrument (T : Type) where
  wave_obs : T
  skyline_mask : T

/-- Python dict assignment `sd[k] = v` on a state dict. -/
def sdSet {T : Type} (sd : List (String × T)) (k : String) (v : T) : List (String × T) :=
  if sd.any (fun p => decide (p.1 = k)) then
    sd.map (fun p => if p.1 = k then (k, v) else p)
  else sd ++ [(k, v)]

/-- Legacy key renaming (src 208-210): if `encoder.mlp.mlp.0.weight` is among
the keys, every key has its `mlp.mlp` replaced by `mlp`. -/
def renameLegacy {T : Type} (sd : List (String × T)) : List (String × T) :=
  if sd.any (fun p => decide (p.1 = "encoder.mlp.mlp.0.weight")) then
    sd.map (fun p => (p.1.replace "mlp.mlp" "mlp", p.2))
  else sd

/-- One iteration of the `for i, model in enumerate(models)` body of
`load_model` (src 206-217): legacy rename, permissive `load_state_dict`
(abstracted by `loadOk`), and on failure the buffer-injection retry.  The
retry subscripts `model_struct[i]['model']` — indices transposed — but the
checkpoint dict is keyed only by the strings `"model"` and `"losses"`, so the
integer lookup raises `KeyError` (an integer-keyed entry, were one present,
would hold a model list or a loss array, and its `['model']` subscript would
raise in turn; both are modelled as errors). -/
def load_model_step {T L : Type} (loadOk : List (String × T) → Bool) (ckpt : Ckpt T L)
    (insts : List (Instrument T))
    (ms : List (List (String × T))) (i : ℕ) : Except String (List (List (String × T))) :=
  let sd := renameLegacy (ms.getD i [])
  let ms := ms.set i sd
  if loadOk sd then .ok ms
  else
    match insts.get? i with
    | none => .error "IndexError"
    | some inst =>
      let sd2 := sdSet (sdSet sd "encoder.instrument.wave_obs" inst.wave_obs)
        "encoder.instrument.skyline_mask" inst.skyline_mask
      let ms2 := ms.set i sd2
      match ms2, dictGet ckpt (PyKey.idx i) with
      | _, none => .error "KeyError"
      | _, some _ => .error "TypeError"

/-- The function `load_model(filename, models, instruments)` (src 202-220): look up the
model list, run the per-model loop, and return the recovered loss history. -/
def load_model {T L : Type} (loadOk : List (String × T) → Bool) (ckpt : Ckpt T L)
    (insts : List (Instrument T)) (nModels : ℕ) : Except String L :=
  match dictGet ckpt (PyKey.str "model") with
  | some (CkptVal.models ms0) =>
    match (List.range nModels).foldlM (load_model_step loadOk ckpt insts) ms0 with
    | .error e => .error e
    | .ok _ =>
      match dictGet ckpt (PyKey.str "losses") with
      | some (CkptVal.hist h) => .ok h
      | _ => .error "KeyError"
  | _ => .error "KeyError"

/-- C5 (code bug): on a checkpoint of the program's own save format, whenever
the permissive `load_state_dict` of model 0 fails, `load_model` does not
recover by injecting the instrument buffers and retrying: the retry reads
`model_struct[i]['model']` instead of `model_struct['model'][i]`, and the
integer subscript on the string-keyed checkpoint dict fails, so the whole
load errors instead of returning the models and the loss history. -/
theorem load_model_retry_fails {T L : Type} (loadOk : List (String × T) → Bool)
    (ms : List (List (String × T))) (losses : L) (inst : Instrument T)
    (tl : List (Instrument T)) (n : ℕ)
    (h0 : loadOk (renameLegacy (ms.getD 0 [])) = false) :
    load_model loadOk (checkpoint_save ms losses) (inst :: tl) (n + 1)
      = .error "KeyError" := by
  have hstep : load_model_step loadOk (checkpoint_save ms losses) (inst :: tl) ms 0
      = .error "KeyError" := by
    simp only [load_model_step]
    rw [h0]
    rfl
  have hdg : dictGet (checkpoint_save ms losses) (PyKey.str "model")
      = some (CkptVal.models ms) := rfl
  simp only [load_model, hdg]
  rw [List.range_succ_eq_map, List.foldlM_cons, hstep]
  rfl

/-- Witness for `load_model_retry_fails`: a one-model checkpoint whose
(abstracted) permissive load always fails. -/
theorem load_model_retry_fails_witness :
    ((fun _ : List (String × ℚ) => false) (renameLegacy ([[("w", (1 : ℚ))]].getD 0 [])))
        = false ∧
      load_model (fun _ => false) (checkpoint_save [[("w", (1 : ℚ))]] (0 : ℚ))
        [Instrument.mk 2 3] 1 = .error "KeyError" :=
  ⟨rfl, load_model_retry_fails (fun _ => false) [[("w", (1 : ℚ))]] 0
    (Instrument.mk 2 3) [] 0 rfl⟩

/-! ## Parameter freezing and the optimizer step (src 287-288, 296-328)

A parameter carries a value, a `requires_grad` flag, and an optional
gradient.  The freezer (src 287-288) is in the source; the autograd and
optimizer behaviour are external collaborators, modelled from the spec's
contract. -/

structure Param where
  value : ℚ
  requires_grad : Bool
  grad : Option ℚ

/-- The decoder freeze `for p in models[0].decoder.parameters(): p.requires_grad = mode['decoder']`
(src 287-288). -/
def setRequiresGrad (b : Bool) (ps : List Param) : List Param :=
  ps.map (fun p => { p with requires_grad := b })

/-- Modelled from the spec: `accelerator.backward(loss)` is an external
runtime primitive; it populates a gradient only for parameters with
`requires_grad = true` — "an optimizer step over a non-trainable parameter is
a no-op because it has no gradient" (§4.3). -/
def backwardFill (gs : ℕ → ℚ) (ps : List Param) : List Param :=
  (ps.enum).map (fun p =>
    if p.2.requires_grad then { p.2 with grad := some (gs p.1) } else p.2)

/-- Modelled from the spec: `optimizer.step()` (torch.optim.Adam) is an
external collaborator; a parameter without a gradient is left untouched, one
with a gradient is updated by the optimizer's update rule `upd`. -/
def optimizerStep (upd : ℚ → ℚ → ℚ) (ps : List Param) : List Param :=
  ps.map (fun p =>
    match p.grad with
    | none => p
    | some g => { p with value := upd p.value g })

/-- The gradient clear `optimizer.zero_grad()` (src 328). -/
def zeroGrad (ps : List Param) : List Param := ps.map (fun p => { p with grad := none })

structure Mode where
  decoder : Bool
  encoder : List Bool
  data : List Bool

/-- One training step as seen by the shared decoder's parameters: the
freezer applies the stage's `decoder` flag (src 287-288), the backward pass
fills gradients, the optimizer steps (src 323-327). -/
def decoderEpochStep (mode : Mode) (upd : ℚ → ℚ → ℚ) (gs : ℕ → ℚ)
    (dec : List Param) : List Param :=
  optimizerStep upd (backwardFill gs (setRequiresGrad mode.decoder dec))

theorem backwardFill_frozen (gs : ℕ → ℚ) (ps : List Param)
    (h : ∀ p ∈ ps, p.requires_grad = false) : backwardFill gs ps = ps := by
  unfold backwardFill
  have h2 : ∀ x ∈ ps.enum,
      (if x.2.requires_grad then { x.2 with grad := some (gs x.1) } else x.2) = x.2 := by
    intro x hx
    have : x.2 ∈ ps := List.snd_mem_of_mem_enum hx
    rw [h _ this]
    simp
  rw [List.map_congr_left h2, List.enum_map_snd]

theorem optimizerStep_no_grad (upd : ℚ → ℚ → ℚ) (ps : List Param)
    (h : ∀ p ∈ ps, p.grad = none) : optimizerStep upd ps = ps := by
  unfold optimizerStep
  have h2 : ∀ p ∈ ps,
      (match p.grad with
        | none => p
        | some g => { p with value := upd p.value g }) = p := by
    intro p hp
    rw [h p hp]
  rw [List.map_congr_left h2, List.map_id']

/-- C9: in an epoch whose stage has `decoder_trainable = false`, after the
freezer runs, the decoder parameters see no gradient, and a full optimizer
step leaves every decoder parameter value unchanged — even though the
optimizer's parameter groups were built once up front and still contain the
decoder parameters.  (The gradients are clean before the step because
`optimizer.zero_grad()` runs after every step.) -/
theorem decoder_frozen_step_unchanged (mode : Mode) (upd : ℚ → ℚ → ℚ) (gs : ℕ → ℚ)
    (dec : List Param) (hmode : mode.decoder = false)
    (hclean : ∀ p ∈ dec, p.grad = none) :
    (decoderEpochStep mode upd gs dec).map (fun p => p.value)
      = dec.map (fun p => p.value) := by
  unfold decoderEpochStep
  rw [hmode]
  have hfr : ∀ p ∈ setRequiresGrad false dec, p.requires_grad = false := by
    intro p hp
    rcases List.mem_map.1 hp with ⟨q, _, rfl⟩
    rfl
  have hcl : ∀ p ∈ setRequiresGrad false dec, p.grad = none := by
    intro p hp
    rcases List.mem_map.1 hp with ⟨q, hq, rfl⟩
    exact hclean q hq
  rw [backwardFill_frozen _ _ hfr, optimizerStep_no_grad _ _ hcl]
  unfold setRequiresGrad
  rw [List.map_map]
  rfl

/-- Witness for `decoder_frozen_step_unchanged`: a single decoder parameter
of value 5, a stage with `decoder_trainable = false`, a gradient-descent
update rule. -/
theorem decoder_frozen_step_unchanged_witness :
    (Mode.mk false [true] [true]).decoder = false ∧
      (decoderEpochStep (Mode.mk false [true] [true]) (fun v g => v - g) (fun _ => 1)
        [Param.mk 5 true none]).map (fun p => p.value) = [(5 : ℚ)] :=
  ⟨rfl, by
    rw [decoder_frozen_step_unchanged (Mode.mk false [true] [true]) (fun v g => v - g)
      (fun _ => 1) [Param.mk 5 true none] rfl
      (by intro p hp; simp at hp; subst hp; rfl)]
    rfl⟩

/-! ## Loss composition (src 60-66, 107-190)

Torch float tensors are idealized as (noncomputable) real numbers; a batch
of latent codes or spectra is a list of rows.  The autoencoder's `encode`,
`decode` and fidelity `loss` are external collaborators carried as fields of
an abstract `Model`. -/

noncomputable section

/-- The logistic sigmoid, `torch.sigmoid`. -/
def sigmoid (x : ℝ) : ℝ := 1 / (1 + Real.exp (-x))

/-- Coordinatewise squared distance `Σ_k (a_k - b_k)²`. -/
def sqDiff (a b : List ℝ) : ℝ := ((a.zip b).map (fun q => (q.1 - q.2) ^ 2)).sum

/-- The function `consistency_loss(s, s_aug)` (src 60-66):
`x = torch.sum((s_aug - s)**2/(0.5)**2, dim=1)/s_size`,
`sim_loss = torch.sigmoid(x) - 0.5`, returned as `sim_loss.sum()`. -/
def consistency_loss (s s_aug : List (List ℝ)) : ℝ :=
  let s_size : ℕ := (s.headD []).length
  ((s.zip s_aug).map (fun p =>
    sigmoid ((((p.2.zip p.1).map (fun q => (q.1 - q.2) ^ 2 / (0.5 : ℝ) ^ 2)).sum)
        / (s_size : ℝ))
      - 0.5)).sum

structure Model where
  encode : List (List ℝ) → List (List ℝ)
  decode : List (List ℝ) → List (List ℝ)
  loss : List (List ℝ) → List (List ℝ) → List ℝ → List (List ℝ) → ℝ
  wave_rest : List ℝ

/-- The function `restframe_weight(model)` (src 107-109) at the defaults `mu = 5000`,
`sigma = 2000`, `amp = 30`: `amp * exp(-(0.5*(x-mu)/sigma)**2)` over the
decoder's restframe wavelength grid. -/
def restframe_weight (model : Model) : List ℝ :=
  model.wave_rest.map (fun x => 30 * Real.exp (-((0.5 * (x - 5000) / 2000) ^ 2)))

/-- The median as `torch.median` computes it along a dimension: the lower middle element, the
element at index `(n-1)/2` of the values sorted ascending. -/
def torchMedian (l : List ℝ) : ℝ :=
  (l.insertionSort (fun a b => a ≤ b)).getD ((l.length - 1) / 2) 0

/-- The masked entries `spec[i][mask]` with
`mask = (wave > 4000) * (wave < 7000)` (src 117-118). -/
def maskedRow (wave row : List ℝ) : List ℝ :=
  ((row.zip wave).filter (fun p => decide (4000 < p.2 ∧ p.2 < 7000))).map (fun p => p.1)

/-- The weighted squared distance `Σ_k W_k (r1_k - r2_k)²` — one entry of `(W * S).sum(-1)` (src 122-126). -/
def weightedSqDiff (W r1 r2 : List ℝ) : ℝ :=
  (((r1.zip r2).zip W).map (fun q => q.2 * (q.1.1 - q.1.2) ^ 2)).sum

/-- The pairwise term of src line 132:
`torch.sigmoid(slope*x - wid/2) + torch.sigmoid(-slope*x - wid/2)`. -/
def pairLoss (slope wid x : ℝ) : ℝ :=
  sigmoid (slope * x - wid / 2) + sigmoid (-(slope * x) - wid / 2)

/-- The function `similarity_restframe(instrument, model, s, slope, wid)` (src 111-141).
`instrument` is unused by the source body and omitted.  `bound=[4000,7000]`
is the source default.  The decoded spectra are normalized by their masked
median, the weighted pairwise spectral dissimilarities and the pairwise
latent dissimilarities are formed, the per-pair sigmoid loss has its
diagonal zeroed, and the total is divided by the batch size. -/
def similarity_restframe (model : Model) (s : List (List ℝ)) (slope wid : ℝ) : ℝ :=
  let s_size : ℕ := (s.headD []).length
  let spec := (model.decode s).map (fun row =>
    row.map (fun v => v / torchMedian (maskedRow model.wave_rest row)))
  let batch_size := spec.length
  let spec_size : ℕ := (spec.headD []).length
  let spec_sim := fun i j =>
    weightedSqDiff (restframe_weight model) (spec.getD i []) (spec.getD j [])
      / (spec_size : ℝ)
  let s_sim := fun i j => sqDiff (s.getD i []) (s.getD j []) / (s_size : ℝ)
  let sim_loss := (List.range batch_size).map (fun i =>
    (List.range batch_size).map (fun j =>
      if i = j then 0
      else sigmoid (slope * (s_sim i j - spec_sim i j) - wid / 2)
        + sigmoid (-(slope * (s_sim i j - spec_sim i j)) - wid / 2)))
  ((sim_loss.map List.sum).sum) / (batch_size : ℝ)

/-- The `x = s_sim - spec_sim` value of the pair `(i, j)` (src 116-131). -/
def simX (model : Model) (s : List (List ℝ)) (i j : ℕ) : ℝ :=
  let spec := (model.decode s).map (fun row =>
    row.map (fun v => v / torchMedian (maskedRow model.wave_rest row)))
  sqDiff (s.getD i []) (s.getD j []) / (((s.headD []).length : ℕ) : ℝ)
    - weightedSqDiff (restframe_weight model) (spec.getD i []) (spec.getD j [])
        / (((spec.headD []).length : ℕ) : ℝ)

structure Batch where
  spec : List (List ℝ)
  w : List (List ℝ)
  z : List ℝ

/-- The helper `_losses(model, instrument, batch, similarity, slope, skip)` (src
143-161): encode, optionally skip (returning `0, 0, s`), otherwise the
model's fidelity loss and — when `similarity` — the restframe similarity
loss at the source-default width 5. -/
def _losses (model : Model) (batch : Batch) (similarity : Bool) (slope : ℝ)
    (skip : Bool) : ℝ × ℝ × List (List ℝ) :=
  let s := model.encode batch.spec
  if skip then (0, 0, s)
  else
    let loss := model.loss batch.spec batch.w batch.z s
    let sim_loss := if similarity then similarity_restframe model s slope 5 else 0
    (loss, sim_loss, s)

/-- The function `get_losses(model, instrument, batch, aug_fct, similarity, consistency,
slope)` (src 163-190).  The augmented pass runs `_losses` with `skip=True`;
the `z_max` handed to the augmentation is the hard-coded local `0.8`
("Hack, variable not passed", src 175). -/
def get_losses (model : Model) (batch : Batch) (aug_fct : Option (Batch → ℝ → Batch))
    (similarity consistency : Bool) (slope : ℝ) : ℝ × ℝ × ℝ × ℝ × ℝ :=
  let r := _losses model batch similarity slope false
  let loss := r.1
  let sim_loss := r.2.1
  let s := r.2.2
  let aug :=
    match aug_fct with
    | some f =>
      let z_max : ℝ := 0.8
      let batch_copy := f batch z_max
      _losses model batch_copy similarity slope true
    | none => (0, 0, [])
  let loss_ := aug.1
  let sim_loss_ := aug.2.1
  let s_ := aug.2.2
  let cons_loss :=
    if consistency && aug_fct.isSome then slope * consistency_loss s s_ else 0
  (loss, sim_loss, loss_, sim_loss_, cons_loss)

structure CliArgs where
  z_max : ℝ
  similarity : Bool
  consistency : Bool

/-- The loss-composition call as the epoch loop issues it (src 312-320):
`train` is invoked from `__main__` (src 466-467) with `--similarity` and
`--consistency` forwarded but `--z_max` not passed, even though `args.z_max`
is in scope at that call site. -/
def mainGetLosses (args : CliArgs) (model : Model) (batch : Batch)
    (aug_fct : Option (Batch → ℝ → Batch)) (slope : ℝ) : ℝ × ℝ × ℝ × ℝ × ℝ :=
  get_losses model batch aug_fct args.similarity args.consistency slope

/-- C7: when an augmentation function is supplied, `get_losses` computes the
augmented view's latent code but skips its fidelity and similarity losses:
the returned augmented-fidelity and augmented-similarity terms are exactly 0,
and the augmented latent code enters only the consistency term (which uses
`model.encode` of the augmented batch at `z_max = 0.8`). -/
theorem get_losses_skips_augmented_terms (model : Model) (batch : Batch)
    (f : Batch → ℝ → Batch) (similarity consistency : Bool) (slope : ℝ) :
    (get_losses model batch (some f) similarity consistency slope).2.2.1 = 0 ∧
    (get_losses model batch (some f) similarity consistency slope).2.2.2.1 = 0 ∧
    (get_losses model batch (some f) similarity consistency slope).2.2.2.2
      = (if consistency then
          slope * consistency_loss (model.encode batch.spec)
            (model.encode ((f batch 0.8).spec))
        else 0) := by
  refine ⟨rfl, rfl, ?_⟩
  cases consistency <;> rfl

/-- C10: the redshift ceiling used for augmentation inside `get_losses` is
the hard-coded `0.8`, independent of the command-line `--z_max`: the output
depends on the augmentation function only through its value at `z_max = 0.8`,
and the loop's call (which has `args.z_max` in scope but does not forward it)
returns identical loss tuples for any two argument records that agree on the
forwarded flags and differ arbitrarily in `z_max`. -/
theorem get_losses_zmax_invariant :
    (∀ (model : Model) (batch : Batch) (f g : Batch → ℝ → Batch)
        (similarity consistency : Bool) (slope : ℝ),
      f batch 0.8 = g batch 0.8 →
      get_losses model batch (some f) similarity consistency slope
        = get_losses model batch (some g) similarity consistency slope) ∧
    (∀ (a a' : CliArgs) (model : Model) (batch : Batch)
        (aug_fct : Option (Batch → ℝ → Batch)) (slope : ℝ),
      a.similarity = a'.similarity → a.consistency = a'.consistency →
      mainGetLosses a model batch aug_fct slope
        = mainGetLosses a' model batch aug_fct slope) := by
  constructor
  · intro model batch f g similarity consistency slope h
    simp only [get_losses, Option.isSome_some]
    rw [h]
  · intro a a' model batch aug_fct slope h1 h2
    simp only [mainGetLosses]
    rw [h1, h2]

/-- A concrete model whose collaborator functions are trivial. -/
def trivialModel : Model :=
  Model.mk (fun _ => []) (fun _ => []) (fun _ _ _ _ => 0) []

/-- Witness for `get_losses_zmax_invariant`: two CLI argument records that
differ only in `z_max` (0.8 vs 0.9) produce the same loss tuple, and two
augmentation functions that agree at `z_max = 0.8` are interchangeable. -/
theorem get_losses_zmax_invariant_witness :
    ((fun (b : Batch) (_ : ℝ) => b) (Batch.mk [] [] []) (0.8 : ℝ)
        = (fun (b : Batch) (z : ℝ) => if z = 0.8 then b else Batch.mk [[0]] [] [])
            (Batch.mk [] [] []) (0.8 : ℝ)) ∧
    (get_losses trivialModel (Batch.mk [] [] [])
        (some (fun b _ => b)) true true 1
      = get_losses trivialModel (Batch.mk [] [] [])
        (some (fun b z => if z = 0.8 then b else Batch.mk [[0]] [] [])) true true 1) ∧
    (mainGetLosses (CliArgs.mk 0.8 true true) trivialModel (Batch.mk [] [] []) none 1
      = mainGetLosses (CliArgs.mk 0.9 true true) trivialModel (Batch.mk [] [] []) none 1) :=
  ⟨by simp,
   get_losses_zmax_invariant.1 trivialModel (Batch.mk [] [] []) _ _ true true 1 (by simp),
   get_losses_zmax_invariant.2 (CliArgs.mk 0.8 true true) (CliArgs.mk 0.9 true true)
     trivialModel (Batch.mk [] [] []) none 1 rfl rfl⟩

theorem sigmoid_zero : sigmoid 0 = 0.5 := by
  unfold sigmoid
  rw [neg_zero, Real.exp_zero]
  norm_num

theorem fst_eq_snd_of_mem_zip_self {α : Type _} (l : List α) :
    ∀ p ∈ l.zip l, p.1 = p.2 := by
  induction l with
  | nil => intro p hp; simp at hp
  | cons a t ih =>
    intro p hp
    rw [List.zip_cons_cons] at hp
    rcases List.mem_cons.1 hp with h | h
    · rw [h]
    · exact ih p h

/-- C4 counterexample: the claim's `x` omits the `/(0.5)**2` factor of src
line 62.  For the one-example batch `s = [[0]]`, `s_aug = [[1]]` the claimed
per-example argument is the squared latent distance `1` (divided by
`s_size = 1`), but the code computes `sigmoid 4 - 0.5`, which differs from
the claimed `sigmoid 1 - 0.5`. -/
theorem consistency_loss_scale_cex :
    sqDiff [(1 : ℝ)] [(0 : ℝ)] = 1 ∧
    consistency_loss [[(0 : ℝ)]] [[(1 : ℝ)]] = sigmoid 4 - 0.5 ∧
    consistency_loss [[(0 : ℝ)]] [[(1 : ℝ)]] ≠ sigmoid 1 - 0.5 := by
  have h1 : sqDiff [(1 : ℝ)] [(0 : ℝ)] = 1 := by
    unfold sqDiff
    norm_num
  have h2 : consistency_loss [[(0 : ℝ)]] [[(1 : ℝ)]] = sigmoid 4 - 0.5 := by
    unfold consistency_loss
    norm_num
  refine ⟨h1, h2, ?_⟩
  rw [h2]
  have hlt : sigmoid 1 < sigmoid 4 := by
    unfold sigmoid
    have he : Real.exp (-4) < Real.exp (-1) := Real.exp_lt_exp.2 (by norm_num)
    have h4 : 0 < 1 + Real.exp (-4) := by positivity
    have hab : 1 + Real.exp (-4) < 1 + Real.exp (-1) := by linarith
    exact one_div_lt_one_div_of_lt h4 hab
  intro hEq
  have : sigmoid 4 = sigmoid 1 := by linarith
  linarith

/-- C4 (amended): the per-example sigmoid argument carries the source's
`/(0.5)**2` factor — it is `4‖s_aug_i − s_i‖² / s_size`, not
`‖s_aug_i − s_i‖² / s_size`.  With that correction: the consistency loss is
the sum over examples of `sigmoid(x) − 0.5`; it is zero when `s_aug = s`;
and in the composed loss it is scaled by the annealing slope, hence 0
whenever `slope = 0` or no augmentation function is supplied. -/
theorem consistency_loss_correct :
    (∀ s s_aug : List (List ℝ),
      consistency_loss s s_aug
        = ((s.zip s_aug).map (fun p =>
            sigmoid (4 * sqDiff p.2 p.1 / (((s.headD []).length : ℕ) : ℝ)) - 0.5)).sum) ∧
    (∀ s : List (List ℝ), consistency_loss s s = 0) ∧
    (∀ (model : Model) (batch : Batch) (f : Batch → ℝ → Batch)
        (similarity consistency : Bool),
      (get_losses model batch (some f) similarity consistency 0).2.2.2.2 = 0) ∧
    (∀ (model : Model) (batch : Batch) (similarity consistency : Bool) (slope : ℝ),
      (get_losses model batch none similarity consistency slope).2.2.2.2 = 0) ∧
    (∀ (model : Model) (batch : Batch) (f : Batch → ℝ → Batch)
        (similarity : Bool) (slope : ℝ),
      (get_losses model batch (some f) similarity true slope).2.2.2.2
        = slope * consistency_loss (model.encode batch.spec)
            (model.encode ((f batch 0.8).spec))) := by
  refine ⟨?_, ?_, ?_, ?_, ?_⟩
  · intro s s_aug
    unfold consistency_loss
    refine congrArg List.sum (List.map_congr_left ?_)
    intro p _
    have hrow : ((p.2.zip p.1).map (fun q => (q.1 - q.2) ^ 2 / (0.5 : ℝ) ^ 2)).sum
        = 4 * sqDiff p.2 p.1 := by
      unfold sqDiff
      generalize (p.2.zip p.1) = l
      induction l with
      | nil => simp
      | cons q t ih =>
        simp only [List.map_cons, List.sum_cons, ih]
        ring
    rw [hrow]
  · intro s
    unfold consistency_loss
    apply List.sum_eq_zero
    intro x hx
    rcases List.mem_map.1 hx with ⟨p, hp, rfl⟩
    have hpp : p.1 = p.2 := fst_eq_snd_of_mem_zip_self s p hp
    have hz : ((p.2.zip p.1).map (fun q => (q.1 - q.2) ^ 2 / (0.5 : ℝ) ^ 2)).sum = 0 := by
      apply List.sum_eq_zero
      intro y hy
      rcases List.mem_map.1 hy with ⟨q, hq, rfl⟩
      have hq2 : q.1 = q.2 := by
        rw [hpp] at hq
        exact fst_eq_snd_of_mem_zip_self p.2 q hq
      rw [hq2, sub_self]
      norm_num
    rw [hz, zero_div, sigmoid_zero]
    norm_num
  · intro model batch f similarity consistency
    cases consistency <;> simp [get_losses]
  · intro model batch similarity consistency slope
    cases consistency <;> simp [get_losses]
  · intro model batch f similarity slope
    rfl

theorem sigmoid_sub_form (t c : ℝ) :
    sigmoid (t - c) = Real.exp t / (Real.exp t + Real.exp c) := by
  unfold sigmoid
  rw [neg_sub, Real.exp_sub, div_eq_div_iff (by positivity) (by positivity), one_mul,
    mul_add, mul_one, mul_div_cancel₀ _ (ne_of_gt (Real.exp_pos t)), add_comm]

theorem sigmoid_negsub_form (t c : ℝ) :
    sigmoid (-t - c) = 1 / (1 + Real.exp (t + c)) := by
  unfold sigmoid
  rw [show -(-t - c) = t + c by ring]

theorem sigmoid_pair_key (u v : ℝ) (hu : 0 < u) (hv : 1 ≤ v) :
    2 / (1 + v) ≤ u / (u + v) + 1 / (1 + u * v) := by
  have hv0 : 0 < v := by linarith
  have h1 : 0 < 1 + v := by linarith
  have h2 : 0 < u + v := by linarith
  have h3 : 0 < 1 + u * v := by positivity
  rw [div_add_div _ _ (ne_of_gt h2) (ne_of_gt h3), div_le_div_iff₀ h1 (by positivity)]
  nlinarith [mul_nonneg (mul_nonneg hv0.le (sub_nonneg.2 hv)) (sq_nonneg (u - 1))]

theorem pairLoss_even (slope wid x : ℝ) : pairLoss slope wid (-x) = pairLoss slope wid x := by
  unfold pairLoss
  rw [show slope * -x - wid / 2 = -(slope * x) - wid / 2 by ring,
    show -(slope * -x) - wid / 2 = slope * x - wid / 2 by ring, add_comm]

theorem pairLoss_min (slope wid x : ℝ) (hw : 0 ≤ wid) :
    pairLoss slope wid 0 ≤ pairLoss slope wid x := by
  have hu : 0 < Real.exp (slope * x) := Real.exp_pos _
  have hv : 1 ≤ Real.exp (wid / 2) := by
    rw [show (1 : ℝ) = Real.exp 0 from (Real.exp_zero).symm]
    exact Real.exp_le_exp.2 (by linarith)
  have hL : pairLoss slope wid 0 = 2 / (1 + Real.exp (wid / 2)) := by
    unfold pairLoss
    rw [show slope * 0 - wid / 2 = 0 - wid / 2 by ring,
      show -(slope * 0) - wid / 2 = -0 - wid / 2 by ring,
      sigmoid_sub_form 0 (wid / 2), sigmoid_negsub_form 0 (wid / 2), Real.exp_zero,
      zero_add, div_add_div_same]
    norm_num [add_comm]
  have hR : pairLoss slope wid x
      = Real.exp (slope * x) / (Real.exp (slope * x) + Real.exp (wid / 2))
        + 1 / (1 + Real.exp (slope * x) * Real.exp (wid / 2)) := by
    unfold pairLoss
    rw [show -(slope * x) - wid / 2 = -(slope * x) - wid / 2 by ring,
      sigmoid_sub_form (slope * x) (wid / 2), sigmoid_negsub_form (slope * x) (wid / 2),
      Real.exp_add]
  rw [hL, hR]
  exact sigmoid_pair_key _ _ hu hv

theorem sum_map_ite_zero (l : List ℕ) (i : ℕ) (f : ℕ → ℝ) :
    ((l.map (fun j => if i = j then (0 : ℝ) else f j)).sum)
      = ((l.filter (fun j => decide (j ≠ i))).map f).sum := by
  induction l with
  | nil => simp
  | cons a t ih =>
    by_cases h : i = a
    · subst h
      simp only [List.map_cons, List.sum_cons, if_pos rfl, List.filter_cons]
      simp [ih]
    · simp only [List.map_cons, List.sum_cons, if_neg h, List.filter_cons]
      simp [Ne.symm h, ih]

/-- C8: the restframe-similarity per-pair loss
`sigmoid(slope*x − wid/2) + sigmoid(−slope*x − wid/2)` is an even function of
`x = s_sim − spec_sim` for every slope and width; it attains its minimum at
`x = 0` (for the non-negative widths in use — the source fixes `wid = 5`),
not necessarily zero there; and `similarity_restframe` zeroes the diagonal
self-pairs and sums only the off-diagonal per-pair losses before dividing by
the batch size. -/
theorem similarity_restframe_properties :
    (∀ slope wid x : ℝ, pairLoss slope wid (-x) = pairLoss slope wid x) ∧
    (∀ slope wid x : ℝ, 0 ≤ wid → pairLoss slope wid 0 ≤ pairLoss slope wid x) ∧
    (∀ (model : Model) (s : List (List ℝ)) (slope wid : ℝ),
      similarity_restframe model s slope wid
        = (((List.range (model.decode s).length).map (fun i =>
            (((List.range (model.decode s).length).filter (fun j => decide (j ≠ i))).map
              (fun j => pairLoss slope wid (simX model s i j))).sum)).sum)
          / (((model.decode s).length : ℕ) : ℝ)) := by
  refine ⟨pairLoss_even, fun slope wid x hw => pairLoss_min slope wid x hw, ?_⟩
  intro model s slope wid
  unfold similarity_restframe
  simp only [List.length_map]
  congr 1
  rw [List.map_map]
  refine congrArg List.sum (List.map_congr_left ?_)
  intro i _
  simp only [Function.comp]
  rw [sum_map_ite_zero]
  refine congrArg List.sum (List.map_congr_left ?_)
  intro j _
  unfold pairLoss simX
  simp only [List.length_map]

/-- Witness for `similarity_restframe_properties`: the source width `5` is
non-negative, and the minimum-at-zero inequality holds at
`slope = 1`, `x = 3`. -/
theorem similarity_restframe_properties_witness :
    (0 : ℝ) ≤ 5 ∧ pairLoss 1 5 0 ≤ pairLoss 1 5 3 :=
  ⟨by norm_num, similarity_restframe_properties.2.1 1 5 3 (by norm_num)⟩

end

end Spender
